import Mathlib

/-!
# RubeEn cryptographic core — shallow embedding

Shallow embedding of `src/services/cryptoService.ts`.  The file holds three
variants of the service (separated in the source): a key-wrap variant with
metadata and a base64-obfuscated JSON key envelope (lines 1–210), a key-wrap
variant with a plain JSON key envelope (lines 211–380), and a password-direct
variant (lines 381–470).  Buffers (`ArrayBuffer`/`Uint8Array`) are embedded as
`List Nat` with every byte `< 256`; strings stay `String`.

The cryptographic primitives themselves (`window.crypto.subtle` AES-GCM,
PBKDF2, `btoa`/`atob`, `JSON.stringify`/`JSON.parse`) are platform code that
is not part of this repository; they are modelled from the spec (§4.1, §4.2)
by concrete executable functions, each marked `Modelled from the spec:` in its
doc comment.  The functions of `cryptoService.ts` itself are translated
line-by-line on top of these models, with the random salt/IV draws made
explicit parameters.
-/

set_option maxRecDepth 10000

namespace RubeEn

/-! ## Base64 (model of the platform `btoa` / `atob`) -/

/-- The double-quote character, written numerically. -/
def quoteChar : Char := Char.ofNat 34

/-- Code point of the base64 digit for a sextet `n < 64`
(`A`–`Z`, `a`–`z`, `0`–`9`, `+`, `/`). -/
def sextetCode (n : Nat) : Nat :=
  if n < 26 then 65 + n
  else if n < 52 then 71 + n
  else if n < 62 then n - 4
  else if n = 62 then 43
  else 47

/-- The base64 digit character for a sextet. -/
def sextetChar (n : Nat) : Char := Char.ofNat (sextetCode n)

/-- Inverse of `sextetChar`: the sextet value of a base64 digit,
`none` for characters outside the alphabet. -/
def decodeB64Char (c : Char) : Option Nat :=
  let n := c.toNat
  if 65 ≤ n ∧ n ≤ 90 then some (n - 65)
  else if 97 ≤ n ∧ n ≤ 122 then some (n - 71)
  else if 48 ≤ n ∧ n ≤ 57 then some (n + 4)
  else if n = 43 then some 62
  else if n = 47 then some 63
  else none

/-- Base64-encode a byte list to a character list (RFC 4648 with `=`
padding), as the platform `btoa` does on a latin-1 string. -/
def b64EncodeChars : List Nat → List Char
  | [] => []
  | [b1] =>
      [sextetChar (b1 / 4), sextetChar (b1 % 4 * 16), '=', '=']
  | [b1, b2] =>
      [sextetChar (b1 / 4), sextetChar (b1 % 4 * 16 + b2 / 16),
       sextetChar (b2 % 16 * 4), '=']
  | b1 :: b2 :: b3 :: rest =>
      sextetChar (b1 / 4) :: sextetChar (b1 % 4 * 16 + b2 / 16) ::
      sextetChar (b2 % 16 * 4 + b3 / 64) :: sextetChar (b3 % 64) ::
      b64EncodeChars rest

/-- Base64-decode a character list back to bytes; `none` on any input the
platform `atob` would reject (wrong length, character outside the
alphabet, misplaced padding). -/
def b64DecodeChars : List Char → Option (List Nat)
  | [] => some []
  | c1 :: c2 :: c3 :: c4 :: rest =>
      match decodeB64Char c1, decodeB64Char c2 with
      | some s1, some s2 =>
          if rest.isEmpty ∧ c4 = '=' then
            if c3 = '=' then
              some [s1 * 4 + s2 / 16]
            else
              match decodeB64Char c3 with
              | some s3 => some [s1 * 4 + s2 / 16, s2 % 16 * 16 + s3 / 4]
              | none => none
          else
            match decodeB64Char c3, decodeB64Char c4 with
            | some s3, some s4 =>
                match b64DecodeChars rest with
                | some bs =>
                    some ((s1 * 4 + s2 / 16) :: (s2 % 16 * 16 + s3 / 4) ::
                          (s3 % 4 * 64 + s4) :: bs)
                | none => none
            | _, _ => none
      | _, _ => none
  | _ => none

/-- Model of `bufferToBase64` (cryptoService.ts lines 35–37):
`btoa(String.fromCharCode(...new Uint8Array(buffer)))` — base64 of the raw
bytes. -/
def bufferToBase64 (buffer : List Nat) : String :=
  String.mk (b64EncodeChars buffer)

/-- Model of `base64ToBuffer` (cryptoService.ts lines 44–52): `atob` then
`charCodeAt` per character — base64 decoding back to raw bytes; the `atob`
step throws (here: `none`) on invalid base64. -/
def base64ToBuffer (base64 : String) : Option (List Nat) :=
  b64DecodeChars base64.data

/-- Modelled from the spec: the platform `btoa` on an arbitrary JS string —
fails (throws) when some character is outside latin-1, otherwise base64 of
the character codes. -/
def btoaStr (s : String) : Option String :=
  if s.data.all (fun c => c.toNat < 256) then
    some (String.mk (b64EncodeChars (s.data.map Char.toNat)))
  else none

/-- Modelled from the spec: the platform `atob` — decodes base64 text back
to the latin-1 string of the decoded bytes, failing on invalid base64. -/
def atobStr (s : String) : Option String :=
  match b64DecodeChars s.data with
  | some bs => some (String.mk (bs.map Char.ofNat))
  | none => none

/-! ## Modelled cryptographic primitives

AES-GCM and PBKDF2 live behind `window.crypto.subtle`; the repository only
calls them.  Following the spec §4.2, the authenticated cipher is modelled
as an executable AEAD over byte lists: a keystream XOR for confidentiality
and a 16-byte tag for integrity.  The tag is built from a polynomial hash
modulo a prime, which gives the model the property the spec demands of
GCM's tag: any change confined to one byte of the authenticated data
changes the tag. -/

/-- Prime modulus of the polynomial authentication hash (2^24 − 3). -/
def macPrime : Nat := 16777213

/-- One step of the polynomial hash: `a * 256 + b (mod macPrime)`. -/
def polyStep (a b : Nat) : Nat := (a * 256 + b) % macPrime

/-- Polynomial hash of a byte list modulo `macPrime`. -/
def polyHash (xs : List Nat) : Nat := xs.foldl polyStep 0

/-- Fold a hash value below 2^31 into one byte, mixing all four of its
base-256 digits. -/
def foldBytes (h : Nat) : Nat :=
  (h ^^^ h / 256 ^^^ h / 65536 ^^^ h / 16777216) % 256

/-- Modelled from the spec: byte `j` of the AES-GCM keystream for a given
key and IV — a deterministic pseudorandom byte. -/
def ksByte (key iv : List Nat) (j : Nat) : Nat :=
  foldBytes (polyHash (key ++ iv ++ [j % 256, j / 256]))

/-- The first `n` keystream bytes for a key/IV pair. -/
def keystream (key iv : List Nat) (n : Nat) : List Nat :=
  (List.range n).map (ksByte key iv)

/-- Pointwise XOR of two byte lists (truncating to the shorter). -/
def xorBytes (xs ys : List Nat) : List Nat :=
  List.zipWith (fun a b => a ^^^ b) xs ys

/-- The 16 tag bytes for a hash value: its base-256 digits (the hash is
below 2^24, so digits 3–15 are zero). -/
def tagBytes (h : Nat) : List Nat :=
  [h % 256, h / 256 % 256, h / 65536 % 256, h / 16777216 % 256,
   0, 0, 0, 0, 0, 0, 0, 0, 0, 0, 0, 0]

/-- Modelled from the spec: the 128-bit AES-GCM authentication tag over
(key, IV, ciphertext), as 16 bytes. -/
def gcmTag (key iv ct : List Nat) : List Nat :=
  tagBytes (polyHash (key ++ iv ++ ct))

/-- Modelled from the spec: AES-GCM `seal` —
`subtle.encrypt({name:'AES-GCM', iv}, key, pt)` returns
ciphertext‖tag where the ciphertext has the plaintext's length and the tag
is 16 bytes (spec §4.2). -/
def gcmSeal (key iv pt : List Nat) : List Nat :=
  xorBytes pt (keystream key iv pt.length) ++
    gcmTag key iv (xorBytes pt (keystream key iv pt.length))

/-- Modelled from the spec: AES-GCM `open` —
`subtle.decrypt({name:'AES-GCM', iv}, key, data)` fails (throws) when
`data` is shorter than the 16-byte tag or when the tag does not verify;
otherwise it returns the full plaintext (spec §4.2: fail closed, no
partial plaintext). -/
def gcmOpen (key iv data : List Nat) : Option (List Nat) :=
  if data.length < 16 then none
  else if data.drop (data.length - 16) =
      gcmTag key iv (data.take (data.length - 16)) then
    some (xorBytes (data.take (data.length - 16))
      (keystream key iv (data.take (data.length - 16)).length))
  else none

/-- UTF-8 bytes of one code point (what `TextEncoder` emits per
character). -/
def utf8Char (n : Nat) : List Nat :=
  if n < 128 then [n]
  else if n < 2048 then [192 + n / 64, 128 + n % 64]
  else if n < 65536 then [224 + n / 4096, 128 + n / 64 % 64, 128 + n % 64]
  else [240 + n / 262144, 128 + n / 4096 % 64, 128 + n / 64 % 64,
        128 + n % 64]

/-- UTF-8 encoding of a string (`new TextEncoder().encode(...)`). -/
def utf8Bytes (s : String) : List Nat :=
  (s.data.map (fun c => utf8Char c.toNat)).flatten

/-- Modelled from the spec: PBKDF2-SHA-256 key derivation
(`deriveKey`/`deriveKeyEncryptionKey` both wrap
`subtle.deriveKey({name:'PBKDF2', salt, iterations: 100000,
hash:'SHA-256'}, ...)` into a 256-bit AES key).  Per spec §4.1 the model is
a deterministic function of (UTF-8 password bytes, salt) to 32 bytes. -/
def deriveKey (password : String) (salt : List Nat) : List Nat :=
  (List.range 32).map
    (fun j => foldBytes (polyHash (utf8Bytes password ++ salt ++ [j, 77])))

/-! ## Error taxonomy

Each variant of the service throws one generic `Error` per function; the
constructors below stand for the three distinct messages actually thrown. -/

/-- The errors thrown by cryptoService.ts, one constructor per distinct
message. -/
inductive CryptoErr where
  /-- Message `'Decryption failed. Please check your password and file.'`
  (password-direct `decryptFile`, line 468). -/
  | decryptionFailed
  /-- Message `'File decryption failed. The key may be incorrect for this file.'`
  (key-wrap `decryptFile`, line 106). -/
  | fileDecryptionFailed
  /-- Message `'Key decryption failed. Please check your password and key file.'`
  (`importAndDecryptKey`, lines 208 and 378). -/
  | keyDecryptionFailed
  deriving DecidableEq, Repr

/-- Decidable equality for `Except`, so that concrete runs of the service
can be checked by evaluation. -/
instance {ε α : Type} [DecidableEq ε] [DecidableEq α] :
    DecidableEq (Except ε α)
  | .ok a, .ok b =>
      if h : a = b then .isTrue (by rw [h]) else .isFalse (by simp [h])
  | .error a, .error b =>
      if h : a = b then .isTrue (by rw [h]) else .isFalse (by simp [h])
  | .ok _, .error _ => .isFalse (by simp)
  | .error _, .ok _ => .isFalse (by simp)

/-! ## Password-direct variant (cryptoService.ts lines 381–470) -/

/-- Translation of `encryptFile` (lines 423–441), password-direct variant: derive a key
from the password and a fresh 16-byte salt, seal under a fresh 12-byte IV,
and return `salt || iv || ciphertext‖tag`.  The random draws
(`crypto.getRandomValues`) are made explicit parameters. -/
def encryptFile (fileContent : List Nat) (password : String)
    (salt iv : List Nat) : List Nat :=
  salt ++ iv ++ gcmSeal (deriveKey password salt) iv fileContent

/-- Translation of `decryptFile` (lines 450–470), password-direct variant, instrumented:
the second component records that the authenticated-decryption primitive
(`subtle.decrypt`) was invoked.  The source slices
`[0,16)`, `[16,28)`, `[28,..)` with no length check and always reaches the
`subtle.decrypt` call, mapping any throw to the generic error. -/
def decryptFileT (encryptedData : List Nat) (password : String) :
    Except CryptoErr (List Nat) × Bool :=
  match gcmOpen (deriveKey password (encryptedData.take 16))
      ((encryptedData.drop 16).take 12) (encryptedData.drop 28) with
  | some pt => (.ok pt, true)
  | none => (.error .decryptionFailed, true)

/-- Projection of `decryptFileT` (lines 450–470): the returned value, without the
instrumentation. -/
def decryptFile (encryptedData : List Nat) (password : String) :
    Except CryptoErr (List Nat) :=
  (decryptFileT encryptedData password).1

/-! ## Key-wrap variant with metadata (cryptoService.ts lines 1–210) -/

/-- Translation of `encryptFile` (lines 72–85), key-wrap variant: seal under the provided
file key and a fresh 12-byte IV, return `iv || ciphertext‖tag`. -/
def encryptFileWithKey (fileContent fileKey iv : List Nat) : List Nat :=
  iv ++ gcmSeal fileKey iv fileContent

/-- Translation of `decryptFile` (lines 93–108), key-wrap variant, instrumented like
`decryptFileT`: slices `[0,12)` and `[12,..)` with no length check and
always invokes `subtle.decrypt`. -/
def decryptFileWithKeyT (encryptedData fileKey : List Nat) :
    Except CryptoErr (List Nat) × Bool :=
  match gcmOpen fileKey (encryptedData.take 12)
      (encryptedData.drop 12) with
  | some pt => (.ok pt, true)
  | none => (.error .fileDecryptionFailed, true)

/-- Projection of `decryptFileWithKeyT` (lines 93–108): the returned value. -/
def decryptFileWithKey (encryptedData fileKey : List Nat) :
    Except CryptoErr (List Nat) :=
  (decryptFileWithKeyT encryptedData fileKey).1

/-- The metadata block `m` of `EncryptedKeyData` (lines 13–17). -/
structure KeyMetadata where
  f : String
  t : Nat
  a : String
  deriving DecidableEq, Repr

/-- Record `EncryptedKeyData` (lines 9–18): the structured key-envelope record
with base64 fields `s` (salt), `i` (iv), `k` (wrapped key) and metadata. -/
structure EncryptedKeyData where
  s : String
  i : String
  k : String
  m : KeyMetadata
  deriving DecidableEq, Repr

/-- Record `DecryptionResult` (lines 21–28): recovered raw file key plus the
decoded metadata. -/
structure DecryptionResult where
  fileKey : List Nat
  filename : String
  encryptedAt : Nat
  encryptedBy : String
  deriving DecidableEq, Repr

/-- Decimal digits of `n`, least significant first, with explicit fuel
(`fuel ≥ n` makes it exact). -/
def decDigitsRev : Nat → Nat → List Nat
  | _, 0 => []
  | 0, _ + 1 => []
  | fuel + 1, m + 1 => ((m + 1) % 10) :: decDigitsRev fuel ((m + 1) / 10)

/-- The decimal digit characters of `n`, as `JSON.stringify` renders a
number (most significant first, `0` for zero). -/
def natToChars (n : Nat) : List Char :=
  if n = 0 then ['0']
  else ((decDigitsRev n n).map (fun d => Char.ofNat (48 + d))).reverse

/-- Modelled from the spec: `JSON.stringify` of the `EncryptedKeyData`
record — the canonical serialization in property-insertion order
(`s`, `i`, `k`, `m` with `f`, `t`, `a`).  JSON string escaping is not
modelled; theorems about the codec restrict the metadata strings to
characters that `JSON.stringify` leaves unescaped. -/
def serializeKeyData (kd : EncryptedKeyData) : String :=
  String.mk
    (("\x7b\"s\":\"").data ++ kd.s.data ++ ("\",\"i\":\"").data ++
     kd.i.data ++ ("\",\"k\":\"").data ++ kd.k.data ++
     ("\",\"m\":\x7b\"f\":\"").data ++ kd.m.f.data ++
     ("\",\"t\":").data ++ natToChars kd.m.t ++ (",\"a\":\"").data ++
     kd.m.a.data ++ ("\"\x7d\x7d").data)

/-- Consume an expected literal from the front of the input, or fail. -/
def expectLit : List Char → List Char → Option (List Char)
  | [], rest => some rest
  | _ :: _, [] => none
  | l :: ls, c :: cs => if c = l then expectLit ls cs else none

/-- Read characters up to (and consuming) the next double quote; fails if
no quote follows. -/
def readUntilQuote : List Char → Option (List Char × List Char)
  | [] => none
  | c :: cs =>
      if c = quoteChar then some ([], cs)
      else
        match readUntilQuote cs with
        | some (field, rest) => some (c :: field, rest)
        | none => none

/-- Whether a character is a decimal digit. -/
def isDigitChar (c : Char) : Bool := 48 ≤ c.toNat ∧ c.toNat ≤ 57

/-- Read a nonempty run of decimal digits as a number. -/
def readNat (cs : List Char) : Option (Nat × List Char) :=
  let ds := cs.takeWhile isDigitChar
  if ds = [] then none
  else some (ds.foldl (fun a c => a * 10 + (c.toNat - 48)) 0,
             cs.dropWhile isDigitChar)

/-- Modelled from the spec: `JSON.parse` specialised to the key-envelope
record — parses the canonical serialization of `EncryptedKeyData`, failing
(`none`) on any input that does not have that shape.  Escape sequences
inside strings are not modelled. -/
def parseKeyData (s : String) : Option EncryptedKeyData :=
  (expectLit ("\x7b\"s\":\"").data s.data).bind fun r1 =>
  (readUntilQuote r1).bind fun p1 =>
  (expectLit (",\"i\":\"").data p1.2).bind fun r2 =>
  (readUntilQuote r2).bind fun p2 =>
  (expectLit (",\"k\":\"").data p2.2).bind fun r3 =>
  (readUntilQuote r3).bind fun p3 =>
  (expectLit (",\"m\":\x7b\"f\":\"").data p3.2).bind fun r4 =>
  (readUntilQuote r4).bind fun p4 =>
  (expectLit (",\"t\":").data p4.2).bind fun r5 =>
  (readNat r5).bind fun p5 =>
  (expectLit (",\"a\":\"").data p5.2).bind fun r6 =>
  (readUntilQuote r6).bind fun p6 =>
  if p6.2 = ("\x7d\x7d").data then
    some ⟨String.mk p1.1, String.mk p2.1, String.mk p3.1,
          ⟨String.mk p4.1, p5.1, String.mk p6.1⟩⟩
  else none

/-- Translation of `exportEncryptedKey` (lines 137–164): wrap the raw file key under a
password-derived key (fresh salt and IV made explicit parameters), attach
metadata (`Date.now()` and `navigator.userAgent` made explicit
parameters), serialize to JSON and base64-encode the JSON text
(`btoa` fails on non-latin-1 characters, hence the `Option`). -/
def exportEncryptedKey (fileKey : List Nat) (password filename : String)
    (timestamp : Nat) (agent : String) (salt iv : List Nat) :
    Option String :=
  btoaStr (serializeKeyData
    ⟨bufferToBase64 salt, bufferToBase64 iv,
     bufferToBase64 (gcmSeal (deriveKey password salt) iv fileKey),
     ⟨filename, timestamp, agent⟩⟩)

/-- Translation of `importAndDecryptKey` (lines 172–210), instrumented: the second
component records whether any cryptographic primitive (`deriveKey`,
`subtle.decrypt`, `subtle.importKey`) was reached.  The base64 decode, the
JSON parse and the three field decodes all happen first; any of their
throws lands in the single `catch`, producing the same generic error as a
failed decryption.  `subtle.importKey('raw', ...)` accepts only 16-, 24-
or 32-byte AES key material. -/
def importAndDecryptKeyT (encodedKeyFile password : String) :
    Except CryptoErr DecryptionResult × Bool :=
  match atobStr encodedKeyFile with
  | none => (.error .keyDecryptionFailed, false)
  | some jsonKeyFile =>
  match parseKeyData jsonKeyFile with
  | none => (.error .keyDecryptionFailed, false)
  | some keyData =>
  match base64ToBuffer keyData.s, base64ToBuffer keyData.i,
        base64ToBuffer keyData.k with
  | some salt, some iv, some encryptedFileKey =>
      match gcmOpen (deriveKey password salt) iv encryptedFileKey with
      | none => (.error .keyDecryptionFailed, true)
      | some rawFileKey =>
          if rawFileKey.length = 16 ∨ rawFileKey.length = 24 ∨
              rawFileKey.length = 32 then
            (.ok ⟨rawFileKey, keyData.m.f, keyData.m.t, keyData.m.a⟩,
             true)
          else (.error .keyDecryptionFailed, true)
  | _, _, _ => (.error .keyDecryptionFailed, false)

/-- Projection of `importAndDecryptKeyT` (lines 172–210): the returned value. -/
def importAndDecryptKey (encodedKeyFile password : String) :
    Except CryptoErr DecryptionResult :=
  (importAndDecryptKeyT encodedKeyFile password).1

/-! ## Proof-layer definitions -/

/-- The polynomial fold carried out in `ZMod macPrime`. -/
def polyZ (a : ZMod macPrime) (xs : List Nat) : ZMod macPrime :=
  xs.foldl (fun (u : ZMod macPrime) (v : Nat) => u * 256 + (v : ZMod macPrime)) a

/-- LSB-first value of a decimal digit list. -/
def lsbVal (ds : List Nat) : Nat := ds.foldr (fun d acc => d + 10 * acc) 0

/-! ## The base64 codec is a round trip on byte lists -/

theorem charOfNat_toNat (n : Nat) (h : n.isValidChar) :
    (Char.ofNat n).toNat = n := by
  simp [Char.ofNat, h, Char.toNat, Char.ofNatAux]
  rfl

theorem decode_sextet : ∀ s, s < 64 →
    decodeB64Char (sextetChar s) = some s := by decide

theorem sextet_ne_pad : ∀ s, s < 64 → sextetChar s ≠ '=' := by decide

theorem b64_roundtrip : ∀ (bs : List Nat), (∀ b ∈ bs, b < 256) →
    b64DecodeChars (b64EncodeChars bs) = some bs
  | [], _ => rfl
  | [b1], h => by
      have hb1 : b1 < 256 := h b1 (by simp)
      have h1 := decode_sextet (b1 / 4) (by omega)
      have h2 := decode_sextet (b1 % 4 * 16) (by omega)
      simp only [b64EncodeChars, b64DecodeChars, h1, h2, List.isEmpty_nil,
        true_and, if_pos rfl]
      simp
      omega
  | [b1, b2], h => by
      have hb1 : b1 < 256 := h b1 (by simp)
      have hb2 : b2 < 256 := h b2 (by simp)
      have h1 := decode_sextet (b1 / 4) (by omega)
      have h2 := decode_sextet (b1 % 4 * 16 + b2 / 16) (by omega)
      have h3 := decode_sextet (b2 % 16 * 4) (by omega)
      have h4 := sextet_ne_pad (b2 % 16 * 4) (by omega)
      simp only [b64EncodeChars, b64DecodeChars, h1, h2, h3,
        List.isEmpty_nil, true_and, if_pos rfl, if_neg h4]
      simp
      omega
  | b1 :: b2 :: b3 :: rest, h => by
      have hb1 : b1 < 256 := h b1 (by simp)
      have hb2 : b2 < 256 := h b2 (by simp)
      have hb3 : b3 < 256 := h b3 (by simp)
      have hrest : ∀ b ∈ rest, b < 256 := fun b hb => h b (by simp [hb])
      have ih := b64_roundtrip rest hrest
      have h1 := decode_sextet (b1 / 4) (by omega)
      have h2 := decode_sextet (b1 % 4 * 16 + b2 / 16) (by omega)
      have h3 := decode_sextet (b2 % 16 * 4 + b3 / 64) (by omega)
      have h4 := decode_sextet (b3 % 64) (by omega)
      have h5 := sextet_ne_pad (b3 % 64) (by omega)
      simp only [b64EncodeChars, b64DecodeChars, h1, h2, h3, h4, ih]
      rw [if_neg (by simp [h5])]
      simp
      omega

/-- C10.  The helper pair `bufferToBase64` / `base64ToBuffer` is a round
trip: decoding the encoding of any byte buffer returns the buffer
byte-for-byte. -/
theorem spec_c10_base64_roundtrip (b : List Nat)
    (hb : ∀ x ∈ b, x < 256) :
    base64ToBuffer (bufferToBase64 b) = some b :=
  b64_roundtrip b hb

/-- Witness for C10 on the buffer `[0, 1, 77, 255]`. -/
theorem spec_c10_base64_roundtrip_witness :
    base64ToBuffer (bufferToBase64 [0, 1, 77, 255]) =
      some [0, 1, 77, 255] :=
  spec_c10_base64_roundtrip [0, 1, 77, 255] (by decide)

/-! ## Characters emitted by the codecs -/

theorem sextetCode_lt (n : Nat) : sextetCode n < 123 := by
  unfold sextetCode; split_ifs <;> omega

theorem sextetChar_toNat (n : Nat) : (sextetChar n).toNat = sextetCode n :=
  charOfNat_toNat _ (Or.inl (by have := sextetCode_lt n; omega))

theorem sextetChar_ne_quote (n : Nat) : sextetChar n ≠ quoteChar := by
  intro h
  have h2 := congrArg Char.toNat h
  rw [sextetChar_toNat] at h2
  have hq : quoteChar.toNat = 34 := by decide
  rw [hq] at h2
  unfold sextetCode at h2
  split_ifs at h2 <;> omega

theorem b64Encode_chars : ∀ bs, ∀ c ∈ b64EncodeChars bs,
    c.toNat < 256 ∧ c ≠ quoteChar
  | [], c => by simp [b64EncodeChars]
  | [b1], c => by
      have he : ('=').toNat < 256 ∧ ('=') ≠ quoteChar := by decide
      simp only [b64EncodeChars, List.mem_cons, List.not_mem_nil, or_false]
      rintro (rfl | rfl | rfl | rfl) <;>
        first
        | exact ⟨by rw [sextetChar_toNat]; have := sextetCode_lt (b1 / 4); omega, sextetChar_ne_quote _⟩
        | exact ⟨by rw [sextetChar_toNat]; have := sextetCode_lt (b1 % 4 * 16); omega, sextetChar_ne_quote _⟩
        | exact he
  | [b1, b2], c => by
      have he : ('=').toNat < 256 ∧ ('=') ≠ quoteChar := by decide
      simp only [b64EncodeChars, List.mem_cons, List.not_mem_nil, or_false]
      rintro (rfl | rfl | rfl | rfl) <;>
        first
        | exact ⟨by rw [sextetChar_toNat]; have := sextetCode_lt (b1 / 4); omega, sextetChar_ne_quote _⟩
        | exact ⟨by rw [sextetChar_toNat]; have := sextetCode_lt (b1 % 4 * 16 + b2 / 16); omega, sextetChar_ne_quote _⟩
        | exact ⟨by rw [sextetChar_toNat]; have := sextetCode_lt (b2 % 16 * 4); omega, sextetChar_ne_quote _⟩
        | exact he
  | b1 :: b2 :: b3 :: rest, c => by
      simp only [b64EncodeChars, List.mem_cons]
      rintro (rfl | rfl | rfl | rfl | hc)
      · exact ⟨by rw [sextetChar_toNat]; have := sextetCode_lt (b1 / 4); omega, sextetChar_ne_quote _⟩
      · exact ⟨by rw [sextetChar_toNat]; have := sextetCode_lt (b1 % 4 * 16 + b2 / 16); omega, sextetChar_ne_quote _⟩
      · exact ⟨by rw [sextetChar_toNat]; have := sextetCode_lt (b2 % 16 * 4 + b3 / 64); omega, sextetChar_ne_quote _⟩
      · exact ⟨by rw [sextetChar_toNat]; have := sextetCode_lt (b3 % 64); omega, sextetChar_ne_quote _⟩
      · exact b64Encode_chars rest c hc

/-! ## Decimal rendering and parsing of the timestamp -/

theorem decDigitsRev_val : ∀ fuel m, m ≤ fuel →
    lsbVal (decDigitsRev fuel m) = m := by
  intro fuel
  induction fuel with
  | zero =>
      intro m hm
      interval_cases m
      rfl
  | succ f ih =>
      intro m hm
      cases m with
      | zero => rfl
      | succ k =>
          show lsbVal (((k + 1) % 10) :: decDigitsRev f ((k + 1) / 10)) =
            k + 1
          have hle : (k + 1) / 10 ≤ f := by omega
          show (k + 1) % 10 + 10 * lsbVal (decDigitsRev f ((k + 1) / 10)) =
            k + 1
          rw [ih _ hle]
          omega

theorem decDigitsRev_lt10 : ∀ fuel m, ∀ d ∈ decDigitsRev fuel m,
    d < 10 := by
  intro fuel
  induction fuel with
  | zero =>
      intro m d hd
      cases m <;> simp [decDigitsRev] at hd
  | succ f ih =>
      intro m d hd
      cases m with
      | zero => simp [decDigitsRev] at hd
      | succ k =>
          simp only [decDigitsRev, List.mem_cons] at hd
          rcases hd with rfl | hd
          · omega
          · exact ih _ d hd

theorem foldl_msb : ∀ (ds : List Nat) (a : Nat),
    List.foldl (fun x d => x * 10 + d) a ds.reverse =
      a * 10 ^ ds.length + lsbVal ds := by
  intro ds
  induction ds with
  | nil => intro a; simp [lsbVal]
  | cons d ds ih =>
      intro a
      simp only [List.reverse_cons, List.foldl_append, List.foldl_cons,
        List.foldl_nil, ih a, List.length_cons]
      show (a * 10 ^ ds.length + lsbVal ds) * 10 + d =
        a * 10 ^ (ds.length + 1) + (d + 10 * lsbVal ds)
      ring

theorem digitChar_toNat (d : Nat) (hd : d < 10) :
    (Char.ofNat (48 + d)).toNat = 48 + d :=
  charOfNat_toNat _ (Or.inl (by omega))

theorem foldl_digit_chars : ∀ (ds : List Nat) (a : Nat),
    (∀ d ∈ ds, d < 10) →
    List.foldl (fun x c => x * 10 + (c.toNat - 48)) a
      (ds.map (fun d => Char.ofNat (48 + d))) =
    List.foldl (fun x d => x * 10 + d) a ds := by
  intro ds
  induction ds with
  | nil => intro a _; rfl
  | cons d ds ih =>
      intro a h
      simp only [List.map_cons, List.foldl_cons]
      rw [digitChar_toNat d (h d (by simp))]
      have h48 : a * 10 + (48 + d - 48) = a * 10 + d := by omega
      rw [h48]
      exact ih _ (fun x hx => h x (by simp [hx]))

theorem natToChars_digit (n : Nat) :
    ∀ c ∈ natToChars n, isDigitChar c = true ∧ c.toNat < 256 ∧
      c ≠ quoteChar := by
  intro c hc
  unfold natToChars at hc
  split at hc
  · simp at hc
    subst hc
    refine ⟨by decide, by decide, by decide⟩
  · simp only [List.mem_reverse, List.mem_map] at hc
    obtain ⟨d, hd, rfl⟩ := hc
    have hd10 := decDigitsRev_lt10 n n d hd
    have ht := digitChar_toNat d hd10
    refine ⟨?_, by omega, ?_⟩
    · simp [isDigitChar, ht]
      omega
    · intro h
      have := congrArg Char.toNat h
      rw [ht] at this
      have hq : quoteChar.toNat = 34 := by decide
      omega

theorem natToChars_ne_nil (n : Nat) : natToChars n ≠ [] := by
  unfold natToChars
  split
  · simp
  · intro h
    rw [List.reverse_eq_nil_iff, List.map_eq_nil_iff] at h
    rename_i hn
    cases n with
    | zero => exact hn rfl
    | succ k => simp [decDigitsRev] at h

/-! ## The canonical key-envelope text parses back to its record -/

theorem expectLit_append : ∀ (lit rest : List Char),
    expectLit lit (lit ++ rest) = some rest
  | [], rest => rfl
  | l :: ls, rest => by
      show expectLit (l :: ls) (l :: (ls ++ rest)) = some rest
      unfold expectLit
      rw [if_pos rfl]
      exact expectLit_append ls rest

theorem readUntilQuote_append :
    ∀ (field rest : List Char), (∀ c ∈ field, c ≠ quoteChar) →
    readUntilQuote (field ++ quoteChar :: rest) = some (field, rest)
  | [], rest => fun _ => by
      show readUntilQuote (quoteChar :: rest) = some ([], rest)
      unfold readUntilQuote
      rw [if_pos rfl]
  | c :: cs, rest => fun h => by
      show readUntilQuote (c :: (cs ++ quoteChar :: rest)) =
        some (c :: cs, rest)
      unfold readUntilQuote
      rw [if_neg (h c (by simp)),
        readUntilQuote_append cs rest (fun x hx => h x (by simp [hx]))]

theorem takeWhile_eq_nil_dropWhile (cs : List Char)
    (hcs : cs.takeWhile isDigitChar = []) :
    cs.dropWhile isDigitChar = cs := by
  cases cs with
  | nil => rfl
  | cons c cs' =>
      rw [List.takeWhile_cons] at hcs
      by_cases hd : isDigitChar c
      · simp [hd] at hcs
      · simp [List.dropWhile_cons, hd]

theorem span_digits2 : ∀ (xs cs : List Char),
    (∀ x ∈ xs, isDigitChar x = true) → cs.takeWhile isDigitChar = [] →
    (xs ++ cs).takeWhile isDigitChar = xs ∧
    (xs ++ cs).dropWhile isDigitChar = cs := by
  intro xs
  induction xs with
  | nil =>
      intro cs _ hcs
      exact ⟨hcs, takeWhile_eq_nil_dropWhile cs hcs⟩
  | cons x xs ih =>
      intro cs hx hcs
      have hxd : isDigitChar x = true := hx x (by simp)
      have hr := ih cs (fun y hy => hx y (by simp [hy])) hcs
      constructor
      · simp [List.takeWhile_cons, hxd, hr.1]
      · simp [List.dropWhile_cons, hxd, hr.2]

theorem readNat_natToChars_append (n : Nat) (cs : List Char)
    (hcs : cs.takeWhile isDigitChar = []) :
    readNat (natToChars n ++ cs) = some (n, cs) := by
  have hspan := span_digits2 (natToChars n) cs
    (fun x hx => (natToChars_digit n x hx).1) hcs
  unfold readNat
  rw [hspan.1, hspan.2, if_neg (natToChars_ne_nil n)]
  simp only [Option.some.injEq, Prod.mk.injEq, and_true]
  unfold natToChars
  split
  · rename_i hn
    subst hn
    decide
  · rename_i hn
    rw [← List.map_reverse]
    rw [foldl_digit_chars _ 0 (fun d hd =>
      decDigitsRev_lt10 n n d (List.mem_reverse.mp hd))]
    rw [foldl_msb (decDigitsRev n n) 0, zero_mul, zero_add]
    exact decDigitsRev_val n n le_rfl

theorem expectLit_nil (cs : List Char) : expectLit [] cs = some cs := rfl

theorem expectLit_cons_self (l : Char) (ls cs : List Char) :
    expectLit (l :: ls) (l :: cs) = expectLit ls cs := by
  simp [expectLit]

theorem parse_serialize (kd : EncryptedKeyData)
    (hqs : ∀ c ∈ kd.s.data, c ≠ quoteChar)
    (hqi : ∀ c ∈ kd.i.data, c ≠ quoteChar)
    (hqk : ∀ c ∈ kd.k.data, c ≠ quoteChar)
    (hqf : ∀ c ∈ kd.m.f.data, c ≠ quoteChar)
    (hqa : ∀ c ∈ kd.m.a.data, c ≠ quoteChar) :
    parseKeyData (serializeKeyData kd) = some kd := by
  obtain ⟨sv, ivv, kv, ⟨fv, tv, av⟩⟩ := kd
  simp only at hqs hqi hqk hqf hqa
  have hmk : ∀ l : List Char, (String.mk l).data = l := fun _ => rfl
  have e2 : ("\",\"i\":\"").data = quoteChar :: (",\"i\":\"").data := by decide
  have e3 : ("\",\"k\":\"").data = quoteChar :: (",\"k\":\"").data := by decide
  have e4 : ("\",\"m\":\x7b\"f\":\"").data =
      quoteChar :: (",\"m\":\x7b\"f\":\"").data := by decide
  have e5 : ("\",\"t\":").data = quoteChar :: (",\"t\":").data := by decide
  have e7 : ("\"\x7d\x7d").data = quoteChar :: ("\x7d\x7d").data := by decide
  have hcomma : ∀ X : List Char,
      ((",\"a\":\"").data ++ X).takeWhile isDigitChar = [] := by
    intro X
    have hc : (",\"a\":\"").data = ',' :: ("\"a\":\"").data := by decide
    rw [hc]
    simp only [List.cons_append, List.takeWhile_cons]
    rw [if_neg (by decide)]
  unfold serializeKeyData parseKeyData
  rw [hmk, e2, e3, e4, e5, e7]
  simp only [List.append_assoc, List.cons_append, List.nil_append,
    expectLit_cons_self, expectLit_nil, Option.some_bind]
  rw [readUntilQuote_append _ _ hqs]
  simp only [List.append_assoc, List.cons_append, List.nil_append,
    expectLit_cons_self, expectLit_nil, Option.some_bind]
  rw [readUntilQuote_append _ _ hqi]
  simp only [List.append_assoc, List.cons_append, List.nil_append,
    expectLit_cons_self, expectLit_nil, Option.some_bind]
  rw [readUntilQuote_append _ _ hqk]
  simp only [List.append_assoc, List.cons_append, List.nil_append,
    expectLit_cons_self, expectLit_nil, Option.some_bind]
  rw [readUntilQuote_append _ _ hqf]
  simp only [List.append_assoc, List.cons_append, List.nil_append,
    expectLit_cons_self, expectLit_nil, Option.some_bind]
  have hcomma2 : ∀ X : List Char,
      (',' :: '\"' :: 'a' :: '\"' :: ':' :: '\"' :: X).takeWhile
        isDigitChar = [] := by
    intro X
    rw [List.takeWhile_cons, if_neg (by decide)]
  rw [readNat_natToChars_append tv _ (hcomma2 _)]
  simp only [List.append_assoc, List.cons_append, List.nil_append,
    expectLit_cons_self, expectLit_nil, Option.some_bind]
  rw [readUntilQuote_append _ _ hqa]
  simp only [List.append_assoc, List.cons_append, List.nil_append,
    expectLit_cons_self, expectLit_nil, Option.some_bind]
  simp

/-! ## Basic facts about the modelled AEAD -/

theorem keystream_length (key iv : List Nat) (n : Nat) :
    (keystream key iv n).length = n := by
  simp [keystream]

theorem xorBytes_length (xs ys : List Nat) :
    (xorBytes xs ys).length = min xs.length ys.length := by
  simp [xorBytes]

theorem xorBytes_cancel :
    ∀ (p k : List Nat), k.length = p.length →
      xorBytes (xorBytes p k) k = p := by
  intro p
  induction p with
  | nil => intro k _; simp [xorBytes]
  | cons a p ih =>
      intro k hk
      cases k with
      | nil => simp at hk
      | cons b k =>
          simp only [xorBytes, List.zipWith_cons_cons]
          simp only [List.length_cons, Nat.succ.injEq] at hk
          have := ih k hk
          simp only [xorBytes] at this
          simp [this, Nat.xor_cancel_right]

theorem gcmTag_length (key iv ct : List Nat) :
    (gcmTag key iv ct).length = 16 := by
  simp [gcmTag, tagBytes]

theorem gcmSeal_length (key iv pt : List Nat) :
    (gcmSeal key iv pt).length = pt.length + 16 := by
  simp [gcmSeal, gcmTag, tagBytes, xorBytes_length, keystream_length]

/-- Round trip of the modelled AEAD: opening a sealed payload with the
same key and IV restores the plaintext. -/
theorem gcmOpen_gcmSeal (key iv pt : List Nat) :
    gcmOpen key iv (gcmSeal key iv pt) = some pt := by
  have hct : (xorBytes pt (keystream key iv pt.length)).length = pt.length := by
    simp [xorBytes_length, keystream_length]
  have hlen : (gcmSeal key iv pt).length = pt.length + 16 :=
    gcmSeal_length key iv pt
  unfold gcmOpen
  rw [if_neg (by omega), hlen]
  unfold gcmSeal
  rw [List.take_left' (by omega), List.drop_left' (by omega), if_pos rfl,
    hct, xorBytes_cancel _ _ (keystream_length key iv pt.length)]

/-! ## Slicing the password-direct envelope -/

/-- Shared round trip for the password-direct mode: `decryptFile` undoes
`encryptFile` for matching passwords, for any 16-byte salt and 12-byte
IV. -/
theorem decrypt_encrypt (P : List Nat) (W : String) (salt iv : List Nat)
    (hs : salt.length = 16) (hi : iv.length = 12) :
    decryptFile (encryptFile P W salt iv) W = .ok P := by
  unfold decryptFile decryptFileT encryptFile
  rw [List.append_assoc, List.take_left' hs, List.drop_left' hs,
    List.take_left' hi]
  have hdrop : (salt ++ (iv ++ gcmSeal (deriveKey W salt) iv P)).drop 28 =
      gcmSeal (deriveKey W salt) iv P := by
    have h1 : ∀ l : List Nat, l.drop 28 = (l.drop 16).drop 12 := by
      intro l; rw [List.drop_drop]
    rw [h1, List.drop_left' hs, List.drop_left' hi]
  rw [hdrop, gcmOpen_gcmSeal]

/-- C1.  For every plaintext `P`, password `W`, 16-byte salt and 12-byte
IV, decrypting the password-direct envelope `encryptFile P W salt iv` with
the same password returns exactly `P`. -/
theorem spec_c1_roundtrip_direct (P : List Nat) (W : String)
    (salt iv : List Nat) (hs : salt.length = 16) (hi : iv.length = 12) :
    decryptFile (encryptFile P W salt iv) W = .ok P :=
  decrypt_encrypt P W salt iv hs hi

/-- Witness for C1 at the plaintext `"hi"`, password `"pw"`, and concrete
salt and IV. -/
theorem spec_c1_roundtrip_direct_witness :
    decryptFile (encryptFile [104, 105] ("pw") (List.replicate 16 3)
      (List.replicate 12 5)) ("pw") = .ok [104, 105] :=
  spec_c1_roundtrip_direct [104, 105] ("pw") (List.replicate 16 3)
    (List.replicate 12 5) (by decide) (by decide)

/-- C4.  The password-direct envelope is exactly
`salt (16) || iv (12) || ciphertext (|P|) || tag (16)`: its length is
`44 + |P|` and it is the ordered concatenation of the three parts. -/
theorem spec_c4_envelope_layout (P : List Nat) (W : String)
    (salt iv : List Nat) (hs : salt.length = 16) (hi : iv.length = 12) :
    (encryptFile P W salt iv).length = 16 + 12 + P.length + 16 ∧
    encryptFile P W salt iv =
      salt ++ iv ++ gcmSeal (deriveKey W salt) iv P := by
  refine ⟨?_, rfl⟩
  simp [encryptFile, gcmSeal_length, hs, hi]
  omega

/-- Witness for C4 at the 11 bytes of `"hello world"` and password
`"correct-horse"`: the envelope is exactly 55 bytes. -/
theorem spec_c4_envelope_layout_witness :
    (encryptFile [104, 101, 108, 108, 111, 32, 119, 111, 114, 108, 100]
      ("correct-horse") (List.replicate 16 3)
      (List.replicate 12 5)).length = 55 := by
  have h := spec_c4_envelope_layout
    [104, 101, 108, 108, 111, 32, 119, 111, 114, 108, 100]
    ("correct-horse") (List.replicate 16 3) (List.replicate 12 5)
    (by decide) (by decide)
  simpa using h.1

/-- C8.  Two encryption runs of the same plaintext and password whose
random salts or IVs differ produce different envelopes, and both
envelopes decrypt under the password to the original plaintext. -/
theorem spec_c8_nondeterminism (P : List Nat) (W : String)
    (s1 i1 s2 i2 : List Nat) (hs1 : s1.length = 16) (hi1 : i1.length = 12)
    (hs2 : s2.length = 16) (hi2 : i2.length = 12)
    (hne : s1 ≠ s2 ∨ i1 ≠ i2) :
    encryptFile P W s1 i1 ≠ encryptFile P W s2 i2 ∧
    decryptFile (encryptFile P W s1 i1) W = .ok P ∧
    decryptFile (encryptFile P W s2 i2) W = .ok P := by
  refine ⟨?_, decrypt_encrypt P W s1 i1 hs1 hi1,
    decrypt_encrypt P W s2 i2 hs2 hi2⟩
  intro h
  have hsalt : s1 = s2 := by
    have := congrArg (List.take 16) h
    rwa [encryptFile, encryptFile, List.append_assoc, List.append_assoc,
      List.take_left' hs1, List.take_left' hs2] at this
  have hiv : i1 = i2 := by
    have := congrArg (fun l => (List.drop 16 l).take 12) h
    simp only [encryptFile, List.append_assoc] at this
    rwa [List.drop_left' hs1, List.drop_left' hs2, List.take_left' hi1,
      List.take_left' hi2] at this
  rcases hne with hne | hne
  · exact hne hsalt
  · exact hne hiv

/-! ## The tag detects any single-byte change in the authenticated data

`polyHash` is a polynomial hash modulo the prime `macPrime`; changing a
single byte of the input changes the hash, because the difference of the
two hashes is `(b − b') · 256^m` in the field `ZMod macPrime`. -/

instance factMacPrime : Fact (Nat.Prime macPrime) :=
  ⟨by unfold macPrime; norm_num⟩

theorem polyFold_lt (xs : List Nat) :
    ∀ a, a < macPrime → xs.foldl polyStep a < macPrime := by
  induction xs with
  | nil => intro a ha; exact ha
  | cons b xs ih =>
      intro a _
      exact ih _ (Nat.mod_lt _ (by norm_num [macPrime]))

theorem polyHash_lt (xs : List Nat) : polyHash xs < macPrime :=
  polyFold_lt xs 0 (by norm_num [macPrime])

theorem cast_polyFold (xs : List Nat) :
    ∀ a : Nat, ((xs.foldl polyStep a : Nat) : ZMod macPrime) =
      polyZ (a : ZMod macPrime) xs := by
  induction xs with
  | nil => intro a; rfl
  | cons b xs ih =>
      intro a
      have hstep : ((polyStep a b : Nat) : ZMod macPrime) =
          (a : ZMod macPrime) * 256 + (b : ZMod macPrime) := by
        unfold polyStep
        rw [ZMod.natCast_mod]
        push_cast
        ring
      show ((xs.foldl polyStep (polyStep a b) : Nat) : ZMod macPrime) = _
      rw [ih (polyStep a b)]
      unfold polyZ
      simp only [List.foldl_cons, hstep]

theorem polyZ_shift (ys : List Nat) :
    ∀ a : ZMod macPrime,
      polyZ a ys = a * 256 ^ ys.length + polyZ 0 ys := by
  induction ys with
  | nil => intro a; simp [polyZ]
  | cons y ys ih =>
      intro a
      show polyZ (a * 256 + (y : ZMod macPrime)) ys = _
      rw [ih (a * 256 + (y : ZMod macPrime))]
      have h0 : polyZ 0 (y :: ys) = polyZ ((y : ZMod macPrime)) ys := by
        show polyZ (0 * 256 + (y : ZMod macPrime)) ys = _
        rw [zero_mul, zero_add]
      rw [h0, ih ((y : ZMod macPrime))]
      simp [List.length_cons, pow_succ]
      ring

theorem polyHash_set_ne (pre suf : List Nat) (b b' : Nat)
    (hb : b < macPrime) (hb' : b' < macPrime) (hne : b ≠ b') :
    polyHash (pre ++ b :: suf) ≠ polyHash (pre ++ b' :: suf) := by
  intro heq
  have hz : ((polyHash (pre ++ b :: suf) : Nat) : ZMod macPrime) =
      ((polyHash (pre ++ b' :: suf) : Nat) : ZMod macPrime) := by
    rw [heq]
  unfold polyHash at hz
  rw [cast_polyFold, cast_polyFold, Nat.cast_zero] at hz
  have expand : ∀ c : Nat, polyZ 0 (pre ++ c :: suf) =
      ((polyZ 0 pre) * 256 + (c : ZMod macPrime)) * 256 ^ suf.length +
        polyZ 0 suf := by
    intro c
    unfold polyZ
    rw [List.foldl_append, List.foldl_cons]
    exact polyZ_shift suf _
  rw [expand b, expand b'] at hz
  have hdiff : ((b : ZMod macPrime) - (b' : ZMod macPrime)) *
      256 ^ suf.length = 0 := by
    ring_nf
    ring_nf at hz
    linear_combination hz
  have h256 : (256 : ZMod macPrime) ≠ 0 := by
    intro h
    have : ((256 : Nat) : ZMod macPrime).val = 0 := by
      rw [show ((256 : Nat) : ZMod macPrime) = (256 : ZMod macPrime) by
        push_cast; ring, h, ZMod.val_zero]
    rw [ZMod.val_cast_of_lt (by norm_num [macPrime])] at this
    omega
  rcases mul_eq_zero.mp hdiff with h1 | h2
  · have hbb : (b : ZMod macPrime) = (b' : ZMod macPrime) := by
      linear_combination h1
    have : b = b' := by
      have hv := congrArg ZMod.val hbb
      rwa [ZMod.val_cast_of_lt hb, ZMod.val_cast_of_lt hb'] at hv
    exact hne this
  · exact pow_ne_zero suf.length h256 h2

/-- The map `tagBytes` is injective below 2^24 (the hash is below `macPrime`). -/
theorem tagBytes_inj (h h' : Nat) (hh : h < 16777216)
    (hh' : h' < 16777216) (heq : tagBytes h = tagBytes h') : h = h' := by
  simp only [tagBytes, List.cons.injEq, and_true] at heq
  omega

/-! ## Byte bounds -/

theorem foldBytes_lt (h : Nat) : foldBytes h < 256 :=
  Nat.mod_lt _ (by norm_num)

theorem ksByte_lt (key iv : List Nat) (j : Nat) : ksByte key iv j < 256 :=
  foldBytes_lt _

theorem xorBytes_bytes_lt :
    ∀ (as bs : List Nat), (∀ a ∈ as, a < 256) → (∀ b ∈ bs, b < 256) →
      ∀ x ∈ xorBytes as bs, x < 256 := by
  intro as
  induction as with
  | nil => intro bs _ _ x hx; simp [xorBytes] at hx
  | cons a as ih =>
      intro bs ha hb x hx
      cases bs with
      | nil => simp [xorBytes] at hx
      | cons b bs =>
          simp only [xorBytes, List.zipWith_cons_cons, List.mem_cons] at hx
          rcases hx with hx | hx
          · subst hx
            have h1 : a < 2 ^ 8 := by
              simpa using ha a (by simp)
            have h2 : b < 2 ^ 8 := by
              simpa using hb b (by simp)
            simpa using Nat.xor_lt_two_pow h1 h2
          · exact ih bs (fun y hy => ha y (by simp [hy]))
              (fun y hy => hb y (by simp [hy])) x hx

theorem sealedCt_bytes_lt (key iv pt : List Nat)
    (hpt : ∀ x ∈ pt, x < 256) :
    ∀ x ∈ xorBytes pt (keystream key iv pt.length), x < 256 := by
  refine xorBytes_bytes_lt pt _ hpt ?_
  intro b hb
  simp only [keystream, List.mem_map] at hb
  obtain ⟨j, _, rfl⟩ := hb
  exact ksByte_lt key iv j

/-! ## Tampering with the sealed data is caught by the tag -/

/-- Replacing one byte of the authenticated ciphertext with a different
value changes the tag. -/
theorem gcmTag_set_ne (key iv ct : List Nat) (j b' : Nat)
    (hj : j < ct.length) (hctb : ∀ x ∈ ct, x < 256) (hb' : b' < 256)
    (hne : b' ≠ ct.getD j 0) :
    gcmTag key iv (ct.set j b') ≠ gcmTag key iv ct := by
  intro heq
  have hset : ct.set j b' = ct.take j ++ b' :: ct.drop (j + 1) :=
    List.set_eq_take_cons_drop b' hj
  have hsplit : ct = ct.take j ++ ct.getD j 0 :: ct.drop (j + 1) := by
    rw [List.getD_eq_getElem ct 0 hj]
    conv_lhs => rw [← List.take_append_drop j ct]
    rw [List.drop_eq_getElem_cons hj]
  have hhash : polyHash (key ++ iv ++ ct.set j b') ≠
      polyHash (key ++ iv ++ ct) := by
    rw [hset]
    conv_rhs => rw [hsplit]
    have := polyHash_set_ne (key ++ iv ++ ct.take j) (ct.drop (j + 1))
      b' (ct.getD j 0)
      (lt_trans hb' (by norm_num [macPrime]))
      (lt_trans (by
        rw [List.getD_eq_getElem ct 0 hj]
        exact hctb _ (List.getElem_mem hj)) (by norm_num [macPrime]))
      hne
    simpa [List.append_assoc] using this
  have h1 := polyHash_lt (key ++ iv ++ ct.set j b')
  have h2 := polyHash_lt (key ++ iv ++ ct)
  exact hhash (tagBytes_inj _ _ (by unfold macPrime at h1; omega)
    (by unfold macPrime at h2; omega) heq)

/-- Replacing one byte of a list with a different value changes the
list. -/
theorem set_ne_self (l : List Nat) (j b : Nat) (hj : j < l.length)
    (hne : b ≠ l.getD j 0) : l.set j b ≠ l := by
  intro heq
  have := congrArg (fun t => t.getD j 0) heq
  simp only at this
  rw [List.getD_eq_getElem _ 0 (by simpa using hj),
    List.getElem_set_self] at this
  exact hne this

/-- Tampering with any single byte of the sealed payload (ciphertext or
tag region) makes the modelled AEAD reject it. -/
theorem gcmOpen_seal_set_none (key iv pt : List Nat) (j b' : Nat)
    (hpt : ∀ x ∈ pt, x < 256) (hj : j < (gcmSeal key iv pt).length)
    (hb' : b' < 256) (hne : b' ≠ (gcmSeal key iv pt).getD j 0) :
    gcmOpen key iv ((gcmSeal key iv pt).set j b') = none := by
  have hct : (xorBytes pt (keystream key iv pt.length)).length =
      pt.length := by
    simp [xorBytes_length, keystream_length]
  have htag : (gcmTag key iv (xorBytes pt (keystream key iv
      pt.length))).length = 16 := gcmTag_length _ _ _
  have hjlen : j < pt.length + 16 := by
    have := gcmSeal_length key iv pt
    omega
  by_cases hcase : j < pt.length
  · -- the flipped byte lies in the ciphertext
    have hset : (gcmSeal key iv pt).set j b' =
        (xorBytes pt (keystream key iv pt.length)).set j b' ++
          gcmTag key iv (xorBytes pt (keystream key iv pt.length)) := by
      unfold gcmSeal
      rw [List.set_append_left _ _ (by omega)]
    have hold : (gcmSeal key iv pt).getD j 0 =
        (xorBytes pt (keystream key iv pt.length)).getD j 0 := by
      unfold gcmSeal
      exact List.getD_append _ _ 0 j (by omega)
    rw [hset]
    unfold gcmOpen
    have hlen : ((xorBytes pt (keystream key iv pt.length)).set j b' ++
        gcmTag key iv (xorBytes pt (keystream key iv pt.length))).length =
        pt.length + 16 := by
      simp [htag, hct]
    rw [if_neg (by omega), hlen]
    rw [List.take_left' (by simp [hct]),
      List.drop_left' (by simp [hct])]
    rw [if_neg]
    intro hcontra
    refine gcmTag_set_ne key iv _ j b' (by omega)
      (sealedCt_bytes_lt key iv pt hpt) hb' ?_ hcontra.symm
    rw [← hold]; exact hne
  · -- the flipped byte lies in the tag
    have hset : (gcmSeal key iv pt).set j b' =
        xorBytes pt (keystream key iv pt.length) ++
          (gcmTag key iv (xorBytes pt (keystream key iv
            pt.length))).set (j - pt.length) b' := by
      unfold gcmSeal
      rw [List.set_append_right _ _ (by omega), hct]
    have hold : (gcmSeal key iv pt).getD j 0 =
        (gcmTag key iv (xorBytes pt (keystream key iv
          pt.length))).getD (j - pt.length) 0 := by
      unfold gcmSeal
      rw [List.getD_append_right _ _ 0 j (by omega), hct]
    rw [hset]
    unfold gcmOpen
    have hlen : (xorBytes pt (keystream key iv pt.length) ++
        (gcmTag key iv (xorBytes pt (keystream key iv
          pt.length))).set (j - pt.length) b').length =
        pt.length + 16 := by
      simp [htag, hct]
    rw [if_neg (by omega), hlen]
    rw [List.take_left' (by omega), List.drop_left' (by omega)]
    rw [if_neg]
    refine set_ne_self _ (j - pt.length) b' (by omega) ?_
    rw [← hold]; exact hne

/-- The modelled AEAD rejects inputs shorter than the 16-byte tag. -/
theorem gcmOpen_short (key iv data : List Nat) (h : data.length < 16) :
    gcmOpen key iv data = none := by
  unfold gcmOpen
  rw [if_pos h]

/-- The modelled AEAD rejects a sealed payload whose tag does not
recompute under the opening key and IV. -/
theorem gcmOpen_mismatch (k k' iv iv' pt : List Nat)
    (h : gcmTag k' iv' (xorBytes pt (keystream k iv pt.length)) ≠
      gcmTag k iv (xorBytes pt (keystream k iv pt.length))) :
    gcmOpen k' iv' (gcmSeal k iv pt) = none := by
  have hct : (xorBytes pt (keystream k iv pt.length)).length = pt.length := by
    simp [xorBytes_length, keystream_length]
  have hlen : (gcmSeal k iv pt).length = pt.length + 16 :=
    gcmSeal_length k iv pt
  unfold gcmOpen
  rw [if_neg (by omega), hlen]
  unfold gcmSeal
  rw [List.take_left' (by omega), List.drop_left' (by omega),
    if_neg (fun heq => h heq.symm)]

/-- C3 fails on the code: there is no pre-cipher length check.  On the
10-byte truncated envelope `[0,…,0]` the password-direct `decryptFile`
does invoke the authenticated-decryption primitive (the instrumentation
flag is `true`), and so does the key-wrap `decryptFile` on a 5-byte
input — refuting "the authenticated-decryption primitive is never called
on such truncated input". -/
theorem spec_c3_counterexample :
    (decryptFileT (List.replicate 10 0) ("pw")).2 = true ∧
    (decryptFileWithKeyT (List.replicate 5 0) (List.replicate 32 0)).2 =
      true := by
  decide

/-- C3 amended.  A truncated envelope (below 44 bytes for password-direct
mode, below 28 bytes for key-wrap mode) is still rejected — decryption
returns the generic decryption error, because the cipher itself refuses
data shorter than the 16-byte tag — but only after the
authenticated-decryption primitive has been invoked on the truncated
input (flag `true`); the code performs no pre-cipher length
validation. -/
theorem spec_c3_amended (env env2 : List Nat) (pw : String)
    (key : List Nat) (h : env.length < 44) (h2 : env2.length < 28) :
    decryptFileT env pw = (.error .decryptionFailed, true) ∧
    decryptFileWithKeyT env2 key =
      (.error .fileDecryptionFailed, true) := by
  constructor
  · unfold decryptFileT
    rw [gcmOpen_short _ _ _ (by simp; omega)]
  · unfold decryptFileWithKeyT
    rw [gcmOpen_short _ _ _ (by simp; omega)]

/-- Witness for the amended C3 at a 10-byte and a 5-byte input. -/
theorem spec_c3_amended_witness :
    decryptFileT (List.replicate 10 0) ("pw") =
      (.error .decryptionFailed, true) ∧
    decryptFileWithKeyT (List.replicate 5 0) (List.replicate 32 0) =
      (.error .fileDecryptionFailed, true) :=
  spec_c3_amended (List.replicate 10 0) (List.replicate 5 0) ("pw")
    (List.replicate 32 0) (by decide) (by decide)

/-- C5.  Decrypting a password-direct envelope with a different password
fails with the (single, generic) decryption error and returns no
plaintext at all, whenever the authentication check under the wrong
password's derived key fails — which clause the spec asserts holds with
overwhelming probability over the random salt and IV. -/
theorem spec_c5_wrong_password (P : List Nat) (W1 W2 : String)
    (salt iv : List Nat) (hs : salt.length = 16) (hi : iv.length = 12)
    (hpw : W1 ≠ W2)
    (hMac : gcmTag (deriveKey W2 salt) iv
        (xorBytes P (keystream (deriveKey W1 salt) iv P.length)) ≠
      gcmTag (deriveKey W1 salt) iv
        (xorBytes P (keystream (deriveKey W1 salt) iv P.length))) :
    decryptFile (encryptFile P W1 salt iv) W2 =
      .error .decryptionFailed := by
  unfold decryptFile decryptFileT encryptFile
  rw [List.append_assoc, List.take_left' hs, List.drop_left' hs,
    List.take_left' hi]
  have hdrop : (salt ++ (iv ++ gcmSeal (deriveKey W1 salt) iv P)).drop 28 =
      gcmSeal (deriveKey W1 salt) iv P := by
    have h1 : ∀ l : List Nat, l.drop 28 = (l.drop 16).drop 12 := by
      intro l; rw [List.drop_drop]
    rw [h1, List.drop_left' hs, List.drop_left' hi]
  rw [hdrop, gcmOpen_mismatch _ _ _ _ _ hMac]

/-- Witness for C5: password `"correct-horse"` versus `"wrong-horse"` on
the bytes of `"hello world"`; the tag mismatch hypothesis is checked by
evaluation. -/
theorem spec_c5_wrong_password_witness :
    decryptFile (encryptFile
      [104, 101, 108, 108, 111, 32, 119, 111, 114, 108, 100]
      ("correct-horse") (List.replicate 16 3) (List.replicate 12 5))
      ("wrong-horse") = .error .decryptionFailed :=
  spec_c5_wrong_password
    [104, 101, 108, 108, 111, 32, 119, 111, 114, 108, 100]
    ("correct-horse") ("wrong-horse") (List.replicate 16 3)
    (List.replicate 12 5) (by decide) (by decide) (by decide) (by decide)

/-- C7.  Replacing any single byte of a produced envelope with a
different byte value (which covers every single-bit flip) makes
decryption with the original password or key fail with the generic
decryption error and never return plaintext: unconditionally when the
altered byte lies in the ciphertext-or-tag region (index ≥ 28 for a
password-direct envelope, ≥ 12 for a key-wrap envelope), and under the
recomputed-tag-mismatch hypothesis — which the spec asserts holds with
overwhelming probability — when it lies in the salt/IV header.  Both
decryption modes are covered, over their respective envelopes. -/
theorem spec_c7_tamper_detection
    (P : List Nat) (W : String) (salt iv : List Nat) (i b : Nat)
    (P2 K iv2 : List Nat) (i2 b2 : Nat)
    (hs : salt.length = 16) (hi : iv.length = 12)
    (hPb : ∀ x ∈ P, x < 256)
    (hib : i < (encryptFile P W salt iv).length)
    (hb : b < 256) (hbne : b ≠ (encryptFile P W salt iv).getD i 0)
    (hcase : 28 ≤ i ∨
      gcmTag (deriveKey W (((encryptFile P W salt iv).set i b).take 16))
          ((((encryptFile P W salt iv).set i b).drop 16).take 12)
          (xorBytes P (keystream (deriveKey W salt) iv P.length)) ≠
        gcmTag (deriveKey W salt) iv
          (xorBytes P (keystream (deriveKey W salt) iv P.length)))
    (hi2 : iv2.length = 12) (hP2b : ∀ x ∈ P2, x < 256)
    (hib2 : i2 < (encryptFileWithKey P2 K iv2).length)
    (hb2 : b2 < 256)
    (hbne2 : b2 ≠ (encryptFileWithKey P2 K iv2).getD i2 0)
    (hcase2 : 12 ≤ i2 ∨
      gcmTag K (((encryptFileWithKey P2 K iv2).set i2 b2).take 12)
          (xorBytes P2 (keystream K iv2 P2.length)) ≠
        gcmTag K iv2 (xorBytes P2 (keystream K iv2 P2.length))) :
    decryptFile ((encryptFile P W salt iv).set i b) W =
      .error .decryptionFailed ∧
    decryptFileWithKey ((encryptFileWithKey P2 K iv2).set i2 b2) K =
      .error .fileDecryptionFailed := by
  have hsi : (salt ++ iv).length = 28 := by simp [hs, hi]
  have hseal := gcmSeal_length (deriveKey W salt) iv P
  have henvlen : (encryptFile P W salt iv).length =
      28 + (gcmSeal (deriveKey W salt) iv P).length := by
    unfold encryptFile
    rw [List.append_assoc, List.length_append]
    simp [hs, hi]
    omega
  have hseal2 := gcmSeal_length K iv2 P2
  constructor
  · by_cases h28 : 28 ≤ i
    · -- altered byte in the sealed region of the direct envelope
      have hset : (encryptFile P W salt iv).set i b =
          salt ++ iv ++ (gcmSeal (deriveKey W salt) iv P).set (i - 28) b := by
        unfold encryptFile
        rw [List.set_append_right _ _ (by omega), hsi]
      have hold : (encryptFile P W salt iv).getD i 0 =
          (gcmSeal (deriveKey W salt) iv P).getD (i - 28) 0 := by
        unfold encryptFile
        rw [List.getD_append_right _ _ 0 i (by omega), hsi]
      unfold decryptFile decryptFileT
      rw [hset, List.append_assoc, List.take_left' hs,
        List.drop_left' hs, List.take_left' hi]
      have hdrop : (salt ++ (iv ++
          (gcmSeal (deriveKey W salt) iv P).set (i - 28) b)).drop 28 =
          (gcmSeal (deriveKey W salt) iv P).set (i - 28) b := by
        have h1 : ∀ l : List Nat, l.drop 28 = (l.drop 16).drop 12 := by
          intro l; rw [List.drop_drop]
        rw [h1, List.drop_left' hs, List.drop_left' hi]
      rw [hdrop, gcmOpen_seal_set_none (deriveKey W salt) iv P (i - 28) b
        hPb (by omega) hb (by rw [← hold]; exact hbne)]
    · -- altered byte in the salt/IV header; tag mismatch hypothesis
      rcases hcase with hcase | hcase
      · omega
      have hdrop : ((encryptFile P W salt iv).set i b).drop 28 =
          gcmSeal (deriveKey W salt) iv P := by
        unfold encryptFile
        rw [List.set_append_left _ _ (by omega),
          List.drop_left' (by simp [hsi])]
      unfold decryptFile decryptFileT
      rw [hdrop, gcmOpen_mismatch _ _ _ _ _ hcase]
  · by_cases h12 : 12 ≤ i2
    · -- altered byte in the sealed region of the key-wrap envelope
      have hset : (encryptFileWithKey P2 K iv2).set i2 b2 =
          iv2 ++ (gcmSeal K iv2 P2).set (i2 - 12) b2 := by
        unfold encryptFileWithKey
        rw [List.set_append_right _ _ (by omega), hi2]
      have hold : (encryptFileWithKey P2 K iv2).getD i2 0 =
          (gcmSeal K iv2 P2).getD (i2 - 12) 0 := by
        unfold encryptFileWithKey
        rw [List.getD_append_right _ _ 0 i2 (by omega), hi2]
      have hlen2 : (encryptFileWithKey P2 K iv2).length =
          12 + (gcmSeal K iv2 P2).length := by
        unfold encryptFileWithKey
        simp [hi2]
      unfold decryptFileWithKey decryptFileWithKeyT
      rw [hset, List.take_left' hi2, List.drop_left' hi2,
        gcmOpen_seal_set_none K iv2 P2 (i2 - 12) b2 hP2b (by omega) hb2
          (by rw [← hold]; exact hbne2)]
    · -- altered byte in the IV header; tag mismatch hypothesis
      rcases hcase2 with hcase2 | hcase2
      · omega
      have hdrop : ((encryptFileWithKey P2 K iv2).set i2 b2).drop 12 =
          gcmSeal K iv2 P2 := by
        unfold encryptFileWithKey
        rw [List.set_append_left _ _ (by omega),
          List.drop_left' (by simp [hi2])]
      unfold decryptFileWithKey decryptFileWithKeyT
      rw [hdrop, gcmOpen_mismatch _ _ _ _ _ hcase2]

/-- Witness for C7: a byte flip inside the ciphertext region of a
concrete direct-mode envelope (index 30) and of a concrete key-wrap
envelope (index 13). -/
theorem spec_c7_tamper_detection_witness :
    decryptFile ((encryptFile [10, 20, 30] ("pw") (List.replicate 16 3)
        (List.replicate 12 5)).set 30
      (((encryptFile [10, 20, 30] ("pw") (List.replicate 16 3)
        (List.replicate 12 5)).getD 30 0 + 1) % 256)) ("pw") =
      .error .decryptionFailed ∧
    decryptFileWithKey ((encryptFileWithKey [7, 8] (List.range 32)
        (List.replicate 12 1)).set 13
      (((encryptFileWithKey [7, 8] (List.range 32)
        (List.replicate 12 1)).getD 13 0 + 1) % 256)) (List.range 32) =
      .error .fileDecryptionFailed :=
  spec_c7_tamper_detection [10, 20, 30] ("pw") (List.replicate 16 3)
    (List.replicate 12 5) 30
    (((encryptFile [10, 20, 30] ("pw") (List.replicate 16 3)
      (List.replicate 12 5)).getD 30 0 + 1) % 256)
    [7, 8] (List.range 32) (List.replicate 12 1) 13
    (((encryptFileWithKey [7, 8] (List.range 32)
      (List.replicate 12 1)).getD 13 0 + 1) % 256)
    (by decide) (by decide) (by decide) (by decide) (by decide)
    (by decide) (.inl (by decide)) (by decide) (by decide) (by decide)
    (by decide) (by decide) (.inl (by decide))

/-- Witness for C8 with two distinct concrete salts. -/
theorem spec_c8_nondeterminism_witness :
    encryptFile [1, 2] ("pw") (List.replicate 16 0) (List.replicate 12 0) ≠
      encryptFile [1, 2] ("pw") (List.replicate 16 1)
        (List.replicate 12 0) ∧
    decryptFile (encryptFile [1, 2] ("pw") (List.replicate 16 0)
      (List.replicate 12 0)) ("pw") = .ok [1, 2] ∧
    decryptFile (encryptFile [1, 2] ("pw") (List.replicate 16 1)
      (List.replicate 12 0)) ("pw") = .ok [1, 2] :=
  spec_c8_nondeterminism [1, 2] ("pw") (List.replicate 16 0)
    (List.replicate 12 0) (List.replicate 16 1) (List.replicate 12 0)
    (by decide) (by decide) (by decide) (by decide) (.inl (by decide))

theorem tagBytes_bytes_lt (h : Nat) : ∀ x ∈ tagBytes h, x < 256 := by
  intro x hx
  simp only [tagBytes, List.mem_cons, List.not_mem_nil, or_false] at hx
  rcases hx with rfl | rfl | rfl | rfl | hx
  · omega
  · omega
  · omega
  · omega
  · rcases hx with rfl | rfl | rfl | rfl | rfl | rfl | rfl | rfl | rfl |
      rfl | rfl | rfl <;> omega

theorem gcmSeal_bytes_lt (key iv pt : List Nat)
    (hpt : ∀ x ∈ pt, x < 256) : ∀ x ∈ gcmSeal key iv pt, x < 256 := by
  intro x hx
  unfold gcmSeal at hx
  rcases List.mem_append.mp hx with hx | hx
  · exact sealedCt_bytes_lt key iv pt hpt x hx
  · exact tagBytes_bytes_lt _ x hx

theorem serialize_chars_lt (kd : EncryptedKeyData)
    (h1 : ∀ c ∈ kd.s.data, c.toNat < 256)
    (h2 : ∀ c ∈ kd.i.data, c.toNat < 256)
    (h3 : ∀ c ∈ kd.k.data, c.toNat < 256)
    (h4 : ∀ c ∈ kd.m.f.data, c.toNat < 256)
    (h5 : ∀ c ∈ kd.m.a.data, c.toNat < 256) :
    ∀ c ∈ (serializeKeyData kd).data, c.toNat < 256 := by
  intro c hc
  unfold serializeKeyData at hc
  simp only [List.mem_append, List.mem_cons, List.not_mem_nil,
    or_false] at hc
  casesm* _ ∨ _ <;>
    first
      | exact h1 c (by assumption)
      | exact h2 c (by assumption)
      | exact h3 c (by assumption)
      | exact h4 c (by assumption)
      | exact h5 c (by assumption)
      | exact (natToChars_digit _ c (by assumption)).2.1
      | (subst c; decide)

theorem atob_btoa (s : String) (h : ∀ c ∈ s.data, c.toNat < 256) :
    btoaStr s = some (String.mk (b64EncodeChars (s.data.map Char.toNat))) ∧
    atobStr (String.mk (b64EncodeChars (s.data.map Char.toNat))) =
      some s := by
  constructor
  · unfold btoaStr
    rw [if_pos (List.all_eq_true.mpr (fun c hc => by
      simpa using h c hc))]
  · unfold atobStr
    have hrt := b64_roundtrip (s.data.map Char.toNat) (by
      intro b hb
      obtain ⟨c, hc, rfl⟩ := List.mem_map.mp hb
      exact h c hc)
    rw [hrt]
    have hid : (Char.ofNat ∘ Char.toNat) = id := funext Char.ofNat_toNat
    simp only [List.map_map, hid, List.map_id]

theorem b64field_chars (bs : List Nat) :
    (∀ c ∈ (bufferToBase64 bs).data, c.toNat < 256) ∧
    (∀ c ∈ (bufferToBase64 bs).data, c ≠ quoteChar) := by
  constructor
  · intro c hc
    exact (b64Encode_chars bs c hc).1
  · intro c hc
    exact (b64Encode_chars bs c hc).2

theorem import_of_canonical (K : List Nat) (W fn : String) (ts : Nat)
    (ag : String) (salt iv : List Nat)
    (hK32 : K.length = 32) (hKb : ∀ x ∈ K, x < 256)
    (hsb : ∀ x ∈ salt, x < 256) (hivb : ∀ x ∈ iv, x < 256)
    (hfq : ∀ c ∈ fn.data, c ≠ quoteChar)
    (haq : ∀ c ∈ ag.data, c ≠ quoteChar)
    (hf8 : ∀ c ∈ fn.data, c.toNat < 256)
    (ha8 : ∀ c ∈ ag.data, c.toNat < 256) :
    ∃ env, btoaStr (serializeKeyData
        ⟨bufferToBase64 salt, bufferToBase64 iv,
         bufferToBase64 (gcmSeal (deriveKey W salt) iv K),
         ⟨fn, ts, ag⟩⟩) = some env ∧
      importAndDecryptKeyT env W = (.ok ⟨K, fn, ts, ag⟩, true) := by
  have hserial : ∀ c ∈ (serializeKeyData
      ⟨bufferToBase64 salt, bufferToBase64 iv,
       bufferToBase64 (gcmSeal (deriveKey W salt) iv K),
       ⟨fn, ts, ag⟩⟩).data, c.toNat < 256 :=
    serialize_chars_lt _ (b64field_chars salt).1 (b64field_chars iv).1
      (b64field_chars _).1 hf8 ha8
  obtain ⟨hb, ha⟩ := atob_btoa _ hserial
  refine ⟨_, hb, ?_⟩
  have hparse := parse_serialize
    ⟨bufferToBase64 salt, bufferToBase64 iv,
     bufferToBase64 (gcmSeal (deriveKey W salt) iv K), ⟨fn, ts, ag⟩⟩
    (b64field_chars salt).2 (b64field_chars iv).2 (b64field_chars _).2
    hfq haq
  have hs64 : base64ToBuffer (bufferToBase64 salt) = some salt :=
    b64_roundtrip salt hsb
  have hi64 : base64ToBuffer (bufferToBase64 iv) = some iv :=
    b64_roundtrip iv hivb
  have hk64 : base64ToBuffer
      (bufferToBase64 (gcmSeal (deriveKey W salt) iv K)) =
      some (gcmSeal (deriveKey W salt) iv K) :=
    b64_roundtrip _ (gcmSeal_bytes_lt _ _ _ hKb)
  unfold importAndDecryptKeyT
  rw [ha]
  simp only [hparse, hs64, hi64, hk64, gcmOpen_gcmSeal, hK32]
  norm_num

/-- Round trip of the key-wrap file cipher: `decryptFile` (key-wrap
variant) undoes `encryptFile` (key-wrap variant) under the same key, for
any 12-byte IV. -/
theorem decryptW_encryptW (P K ivf : List Nat) (hivf : ivf.length = 12) :
    decryptFileWithKey (encryptFileWithKey P K ivf) K = .ok P := by
  unfold decryptFileWithKey decryptFileWithKeyT encryptFileWithKey
  rw [List.take_left' hivf, List.drop_left' hivf, gcmOpen_gcmSeal]

/-- C2.  The key-wrap round trip: exporting a 32-byte file key under a
password and importing it back with the same password recovers exactly
the key, and decrypting the key-wrap file envelope with the recovered key
returns the plaintext. -/
theorem spec_c2_roundtrip_keywrap (P K : List Nat) (W fn : String)
    (ts : Nat) (ag : String) (salt iv ivf : List Nat)
    (hK32 : K.length = 32) (hKb : ∀ x ∈ K, x < 256)
    (hsb : ∀ x ∈ salt, x < 256) (hivb : ∀ x ∈ iv, x < 256)
    (hfq : ∀ c ∈ fn.data, c ≠ quoteChar)
    (haq : ∀ c ∈ ag.data, c ≠ quoteChar)
    (hf8 : ∀ c ∈ fn.data, c.toNat < 256)
    (ha8 : ∀ c ∈ ag.data, c.toNat < 256)
    (hivf : ivf.length = 12) :
    ∃ env r, exportEncryptedKey K W fn ts ag salt iv = some env ∧
      importAndDecryptKey env W = .ok r ∧ r.fileKey = K ∧
      decryptFileWithKey (encryptFileWithKey P K ivf) r.fileKey =
        .ok P := by
  obtain ⟨env, hexp, himp⟩ := import_of_canonical K W fn ts ag salt iv
    hK32 hKb hsb hivb hfq haq hf8 ha8
  refine ⟨env, ⟨K, fn, ts, ag⟩, hexp, ?_, rfl, ?_⟩
  · show (importAndDecryptKeyT env W).1 = _
    rw [himp]
  · exact decryptW_encryptW P K ivf hivf

/-- Witness for C2 at a concrete 32-byte key, password, metadata, salt
and IVs. -/
theorem spec_c2_roundtrip_keywrap_witness :
    ∃ env r, exportEncryptedKey (List.range 32) ("p1") ("f") 5 ("a")
        (List.replicate 16 2) (List.replicate 12 3) = some env ∧
      importAndDecryptKey env ("p1") = .ok r ∧
      r.fileKey = List.range 32 ∧
      decryptFileWithKey (encryptFileWithKey [9, 8, 7] (List.range 32)
        (List.replicate 12 1)) r.fileKey = .ok [9, 8, 7] :=
  spec_c2_roundtrip_keywrap [9, 8, 7] (List.range 32) ("p1") ("f") 5
    ("a") (List.replicate 16 2) (List.replicate 12 3)
    (List.replicate 12 1) (by decide) (by decide) (by decide) (by decide)
    (by decide) (by decide) (by decide) (by decide) (by decide)

/-- C9.  The metadata block of the key envelope is not covered by the
authentication tag: replacing the metadata fields of the serialized
record produced by `exportEncryptedKey` with arbitrary attacker-chosen
values yields an envelope that still imports successfully under the
correct password, returns the same file key, and reports the substituted
metadata. -/
theorem spec_c9_metadata_unauthenticated (K : List Nat) (W fn : String)
    (ts : Nat) (ag fn2 : String) (ts2 : Nat) (ag2 : String)
    (salt iv : List Nat)
    (hK32 : K.length = 32) (hKb : ∀ x ∈ K, x < 256)
    (hsb : ∀ x ∈ salt, x < 256) (hivb : ∀ x ∈ iv, x < 256)
    (hfq : ∀ c ∈ fn.data, c ≠ quoteChar)
    (haq : ∀ c ∈ ag.data, c ≠ quoteChar)
    (hf8 : ∀ c ∈ fn.data, c.toNat < 256)
    (ha8 : ∀ c ∈ ag.data, c.toNat < 256)
    (hfq2 : ∀ c ∈ fn2.data, c ≠ quoteChar)
    (haq2 : ∀ c ∈ ag2.data, c ≠ quoteChar)
    (hf82 : ∀ c ∈ fn2.data, c.toNat < 256)
    (ha82 : ∀ c ∈ ag2.data, c.toNat < 256) :
    ∃ env env2,
      exportEncryptedKey K W fn ts ag salt iv = some env ∧
      btoaStr (serializeKeyData
        ⟨bufferToBase64 salt, bufferToBase64 iv,
         bufferToBase64 (gcmSeal (deriveKey W salt) iv K),
         ⟨fn2, ts2, ag2⟩⟩) = some env2 ∧
      importAndDecryptKey env2 W = .ok ⟨K, fn2, ts2, ag2⟩ := by
  obtain ⟨env, hexp, _⟩ := import_of_canonical K W fn ts ag salt iv
    hK32 hKb hsb hivb hfq haq hf8 ha8
  obtain ⟨env2, hexp2, himp2⟩ := import_of_canonical K W fn2 ts2 ag2
    salt iv hK32 hKb hsb hivb hfq2 haq2 hf82 ha82
  refine ⟨env, env2, hexp, hexp2, ?_⟩
  show (importAndDecryptKeyT env2 W).1 = _
  rw [himp2]

/-- Witness for C9: the original export used metadata
`("f", 5, "a")`; the attacker substitutes `("evil", 7, "mallory")`. -/
theorem spec_c9_metadata_unauthenticated_witness :
    ∃ env env2,
      exportEncryptedKey (List.replicate 32 1) ("p1") ("f") 5 ("a")
        (List.replicate 16 2) (List.replicate 12 3) = some env ∧
      btoaStr (serializeKeyData
        ⟨bufferToBase64 (List.replicate 16 2),
         bufferToBase64 (List.replicate 12 3),
         bufferToBase64 (gcmSeal (deriveKey ("p1") (List.replicate 16 2))
           (List.replicate 12 3) (List.replicate 32 1)),
         ⟨("evil"), 7, ("mallory")⟩⟩) = some env2 ∧
      importAndDecryptKey env2 ("p1") =
        .ok ⟨List.replicate 32 1, ("evil"), 7, ("mallory")⟩ :=
  spec_c9_metadata_unauthenticated (List.replicate 32 1) ("p1") ("f") 5
    ("a") ("evil") 7 ("mallory") (List.replicate 16 2)
    (List.replicate 12 3) (by decide) (by decide) (by decide) (by decide)
    (by decide) (by decide) (by decide) (by decide) (by decide)
    (by decide) (by decide) (by decide)

/-- C6 fails on the code: `importAndDecryptKey` wraps the base64 decode,
the JSON parse and the decryption in a single `try`/`catch` that rethrows
one generic error, so a structurally invalid key file produces exactly
the same error value as a wrong password — the two failures are not
distinguishable.  (`"####"` fails the `atob` step; the exported envelope
with password `"p2"` instead of `"p1"` fails authentication.) -/
theorem spec_c6_counterexample :
    importAndDecryptKeyT ("####") ("p2") =
      (.error .keyDecryptionFailed, false) ∧
    (exportEncryptedKey (List.replicate 32 1) ("p1") ("f") 5 ("a")
      (List.replicate 16 2) (List.replicate 12 3)).map
      (fun env => importAndDecryptKeyT env ("p2")) =
      some (.error .keyDecryptionFailed, true) := by
  decide

/-- C6 amended.  Any input whose base64 decode or JSON parse fails is
rejected before any cryptographic call (the instrumentation flag is
`false`), but the error surfaced is the same generic key-decryption error
that a wrong password produces; the code does not distinguish the two. -/
theorem spec_c6_amended (s pw : String)
    (h : atobStr s = none ∨
      ∃ j, atobStr s = some j ∧ parseKeyData j = none) :
    importAndDecryptKeyT s pw = (.error .keyDecryptionFailed, false) := by
  unfold importAndDecryptKeyT
  rcases h with h | ⟨j, hj, hpj⟩
  · rw [h]
  · simp only [hj, hpj]

/-- Witness for the amended C6 at the input `"####"`. -/
theorem spec_c6_amended_witness :
    importAndDecryptKeyT ("####") ("p") =
      (.error .keyDecryptionFailed, false) :=
  spec_c6_amended ("####") ("p") (.inl (by decide))

end RubeEn
